import Mathlib

/-!
Shallow embedding of `util/bloom.cc` (leveldb Bloom filter policy).

The C++ source defines `BloomFilterPolicy` with members `bits_per_key_` and
`k_` (both `size_t`), a constructor deriving `k_` from an `int bits_per_key`,
and the two virtual methods `CreateFilter` and `KeyMayMatch`.  We model byte
strings as `List Nat` (each element a byte value 0..255), `size_t` arithmetic
as `Nat` arithmetic reduced mod `2 ^ 64` where the source can wrap, and
`uint32_t` arithmetic reduced mod `2 ^ 32`.  The external hash function
`Hash(data, size, 0xbc9f1d34)` lives in another translation unit
(`util/hash.cc`) and is taken as a parameter `hash : HashFn` throughout; its
`uint32_t` return type is modelled by reducing the result mod `2 ^ 32`.
-/

namespace LevelDBBloom

/-- The external hash function at the fixed seed `0xbc9f1d34`, i.e.
`Hash(key.data(), key.size(), 0xbc9f1d34)` as a function of the key bytes.
Only determinism is assumed; every theorem below quantifies over it. -/
abbrev HashFn := List Nat → Nat

/-- Reduction to a 32-bit machine word value (`uint32_t`). -/
def w32 (x : Nat) : Nat := x % 2 ^ 32

/-- Conversion of a C `int` to `size_t`: wraps modulo `2 ^ 64` (LP64). -/
def sizeTOfInt (b : Int) : Nat := (b % (2 ^ 64 : Int)).toNat

/-- Conversion of a signed (two's-complement) `char` holding byte value
`b` (0..255) to `size_t`, as happens in `const size_t k = array[len-1]`:
bytes ≥ 128 are negative `char`s and sign-extend to huge `size_t` values. -/
def sizeTOfChar (b : Nat) : Nat := if b < 128 then b else 2 ^ 64 - (256 - b)

/-- `BloomHash(key) = Hash(key.data(), key.size(), 0xbc9f1d34)`; the
`uint32_t` return type is modelled by the `w32` reduction. -/
def bloomHash (hash : HashFn) (key : List Nat) : Nat := w32 (hash key)

/-- `const uint32_t delta = (h >> 17) | (h << 15);` — rotate the 32-bit word
`h` right by 17 bits (the left shift wraps in `uint32_t`). -/
def deltaOf (h : Nat) : Nat := (h >>> 17) ||| w32 (h <<< 15)

/-- `k_ = static_cast<size_t>(bits_per_key * 0.69)`.  For nonnegative
`bits_per_key` the truncated `double` product equals `69 * b / 100` for every
value that survives the clamp in `clampK` (and both sides exceed 30 beyond
it, so the clamped results agree everywhere).  For negative `bits_per_key`
the cast of a negative `double` to `size_t` is undefined behaviour in C++;
we model it as saturation to 0 — any value the cast might produce is absorbed
into `[1, 30]` by the clamp (see the C4 theorem, which also covers an
arbitrary cast result). -/
def rawK (b : Int) : Nat := (69 * b / 100).toNat

/-- `if (k_ < 1) k_ = 1; if (k_ > 30) k_ = 30;` -/
def clampK (t : Nat) : Nat := if t < 1 then 1 else if t > 30 then 30 else t

/-- The probe count stored by the constructor `BloomFilterPolicy(int)`. -/
def kOf (b : Int) : Nat := clampK (rawK b)

/-- The `BloomFilterPolicy` object: members `bits_per_key_` and `k_`
(both `size_t`). -/
structure BloomFilterPolicy where
  bits_per_key : Nat
  k : Nat

/-- The constructor `BloomFilterPolicy(int bits_per_key)`: stores
`bits_per_key_` (converted to `size_t`) and the derived, clamped `k_`. -/
def mkPolicy (b : Int) : BloomFilterPolicy := ⟨sizeTOfInt b, kOf b⟩

/-- `size_t bits = n * bits_per_key_;` (`size_t` product, wraps mod `2^64`). -/
def rawBits (p : BloomFilterPolicy) (n : Nat) : Nat := n * p.bits_per_key % 2 ^ 64

/-- `if (bits < 64) bits = 64;` -/
def adjBits (p : BloomFilterPolicy) (n : Nat) : Nat :=
  if rawBits p n < 64 then 64 else rawBits p n

/-- `size_t bytes = (bits + 7) / 8;` (the addition wraps in `size_t`). -/
def bytesOf (p : BloomFilterPolicy) (n : Nat) : Nat := (adjBits p n + 7) % 2 ^ 64 / 8

/-- `bits = bytes * 8;` — the final bit count used by the probe loop. -/
def finalBits (p : BloomFilterPolicy) (n : Nat) : Nat := bytesOf p n * 8

/-- `array[bitpos/8] |= (1 << (bitpos % 8));` — set one bit, LSB-first within
its byte.  (`List.set` out of range is a no-op; in the source an out-of-range
index is undefined behaviour, reachable only when `bits = 0`, see C2.) -/
def setBit (arr : List Nat) (pos : Nat) : List Nat :=
  arr.set (pos / 8) (arr.getD (pos / 8) 0 ||| 1 <<< (pos % 8))

/-- `(array[bitpos/8] & (1 << (bitpos % 8))) != 0` — test one bit.  Reading
the byte through a signed `char` then `&`-ing with a mask below 256 gives the
same answer as on the unsigned byte value, which is what we model. -/
def getBit (arr : List Nat) (pos : Nat) : Bool :=
  arr.getD (pos / 8) 0 &&& 1 <<< (pos % 8) != 0

/-- The inner loop of `CreateFilter` for one key:
`for (j = 0; j < k_; j++) { bitpos = h % bits; set bit; h += delta; }`.
The second `Nat` argument counts the remaining iterations. -/
def setLoop (bits delta : Nat) : Nat → Nat → List Nat → List Nat
  | _, 0, arr => arr
  | h, j + 1, arr => setLoop bits delta (w32 (h + delta)) j (setBit arr (h % bits))

/-- The per-key body of the outer loop of `CreateFilter`:
`h = BloomHash(keys[i]); delta = (h >> 17) | (h << 15);` then the probe loop. -/
def addKey (hash : HashFn) (bits k : Nat) (arr : List Nat) (key : List Nat) : List Nat :=
  setLoop bits (deltaOf (bloomHash hash key)) (bloomHash hash key) k arr

/-- `CreateFilter(keys, n, dst)`: the byte sequence appended to `*dst`
(the caller's buffer contents before the call are untouched, when the call is
safe in the sense of `CreateFilterSafe`): `bytes` zero bytes are appended
(`dst->resize`), then one byte holding `k_` (`dst->push_back`), then the bit
array region is populated key by key. -/
def CreateFilter (hash : HashFn) (p : BloomFilterPolicy) (keys : List (List Nat)) : List Nat :=
  (keys.foldl (addKey hash (finalBits p keys.length) p.k)
    (List.replicate (bytesOf p keys.length) 0)) ++ [p.k]

/-- The probe loop of `KeyMayMatch`:
`for (j = 0; j < k; j++) { bitpos = h % bits; if bit unset return false; h += delta; }`. -/
def queryLoop (arr : List Nat) (bits delta : Nat) : Nat → Nat → Bool
  | _, 0 => true
  | h, j + 1 =>
    if getBit arr (h % bits) then queryLoop arr bits delta (w32 (h + delta)) j else false

/-- `KeyMayMatch(key, bloom_filter)`.  The receiver `p` is the policy object
the method is invoked on; its body reads none of the members (`bits_per_key_`,
`k_`) — the probe count is read from the filter trailing byte (through a
signed `char`, hence `sizeTOfChar`).  `const size_t bits = (len - 1) * 8;` is
a `size_t` product and wraps mod `2^64` (it does so only for filters of more
than `2^61` bytes). -/
def KeyMayMatch (p : BloomFilterPolicy) (hash : HashFn) (key : List Nat) (f : List Nat) : Bool :=
  if f.length < 2 then false
  else
    let bits := (f.length - 1) * 8 % 2 ^ 64
    let k := sizeTOfChar (f.getD (f.length - 1) 0)
    if k > 30 then true
    else queryLoop f bits (deltaOf (bloomHash hash key)) (bloomHash hash key) k

/-- The j-th probe position of a key against a filter of `bits` bits:
`(h0 + j * delta) mod 2^32 mod bits` — the closed form of the evolving `h`. -/
def probeSeq (hash : HashFn) (key : List Nat) (bits j : Nat) : Nat :=
  w32 (bloomHash hash key + j * deltaOf (bloomHash hash key)) % bits

/-- Safety of `CreateFilter` in the C sense: the divisor `bits` of the probe
loop is nonzero whenever the loop runs (it runs iff there is at least one key,
since `k_ ≥ 1` always).  When it holds, every write index is inside the
appended bit array (see the C2 theorem). -/
def CreateFilterSafe (p : BloomFilterPolicy) (n : Nat) : Prop :=
  n = 0 ∨ finalBits p n ≠ 0

/-- All byte-write indices of `CreateFilter` fall inside the `bytes`-byte bit
array region. -/
def CreateFilterInBounds (hash : HashFn) (p : BloomFilterPolicy) (keys : List (List Nat)) : Prop :=
  ∀ key ∈ keys, ∀ j < p.k,
    probeSeq hash key (finalBits p keys.length) j / 8 < bytesOf p keys.length

/-- Safety of `KeyMayMatch` in the C sense: whenever its probe loop actually
runs — filter at least 2 bytes and decoded probe count `k` in `1..30` — the
loop divisor `(len - 1) * 8` (a `size_t` product, wrapping mod `2^64`) is
nonzero, and every byte read lands strictly inside the bit-array portion
(never on the trailing byte or beyond).  In the remaining branches
(`len < 2`, `k > 30`, `k = 0`) no modulo and no probe read executes at all. -/
def KeyMayMatchSafe (hash : HashFn) (key : List Nat) (f : List Nat) : Prop :=
  2 ≤ f.length →
    1 ≤ sizeTOfChar (f.getD (f.length - 1) 0) →
    sizeTOfChar (f.getD (f.length - 1) 0) ≤ 30 →
    (f.length - 1) * 8 % 2 ^ 64 ≠ 0 ∧
    ∀ j < sizeTOfChar (f.getD (f.length - 1) 0),
      probeSeq hash key ((f.length - 1) * 8 % 2 ^ 64) j / 8 < f.length - 1

/-- `KeyMayMatch` is safe (in the sense of `KeyMayMatchSafe`) on every query
key and every encoded filter of at most `2^61` bytes, i.e. every filter for
which the `size_t` product `(len - 1) * 8` does not wrap.  (Beyond that the
wrap can make the probe divisor zero: see the C2 counterexample.) -/
def KeyMayMatchSafeBelowWrap (hash : HashFn) : Prop :=
  ∀ (key f : List Nat), f.length ≤ 2 ^ 61 → KeyMayMatchSafe hash key f

/-- A concrete hash function used to instantiate the `hash` parameter in
witnesses; any function of the key bytes would do. -/
def sampleHash : HashFn := fun key => key.foldl (fun a c => a * 131 + c) 2166136261

/-! ### Lemmas about single-bit operations -/

theorem getBit_eq_testBit (arr : List Nat) (pos : Nat) :
    getBit arr pos = (arr.getD (pos / 8) 0).testBit (pos % 8) := by
  unfold getBit
  rw [Nat.one_shiftLeft, Nat.and_two_pow]
  cases h : (arr.getD (pos / 8) 0).testBit (pos % 8) <;> simp [h]

theorem length_setBit (arr : List Nat) (pos : Nat) :
    (setBit arr pos).length = arr.length := List.length_set ..

theorem getD_set_eq_of_lt {l : List Nat} {i : Nat} (a : Nat) (h : i < l.length) :
    (l.set i a).getD i 0 = a := by
  rw [List.getD_eq_getElem?_getD, List.getElem?_set_eq_of_lt a h, Option.getD_some]

theorem getD_set_ne {l : List Nat} {i j : Nat} (a : Nat) (h : i ≠ j) :
    (l.set i a).getD j 0 = l.getD j 0 := by
  rw [List.getD_eq_getElem?_getD, List.getElem?_set_ne h, ← List.getD_eq_getElem?_getD]

theorem getBit_setBit_self {arr : List Nat} {pos : Nat} (h : pos / 8 < arr.length) :
    getBit (setBit arr pos) pos = true := by
  rw [getBit_eq_testBit]
  unfold setBit
  rw [getD_set_eq_of_lt _ h, Nat.one_shiftLeft, Nat.testBit_lor, Nat.testBit_two_pow_self,
    Bool.or_true]

theorem getBit_setBit_of_getBit {arr : List Nat} {q : Nat} (p : Nat)
    (h : getBit arr q = true) : getBit (setBit arr p) q = true := by
  rw [getBit_eq_testBit] at h ⊢
  unfold setBit
  rcases eq_or_ne (p / 8) (q / 8) with he | hne
  · rcases Nat.lt_or_ge (p / 8) arr.length with hlt | hge
    · rw [he] at hlt ⊢
      rw [getD_set_eq_of_lt _ hlt, Nat.testBit_lor, h, Bool.true_or]
    · rw [List.set_eq_of_length_le hge]
      exact h
  · rw [getD_set_ne _ hne]
    exact h

theorem setBit_comm (arr : List Nat) (p q : Nat) :
    setBit (setBit arr p) q = setBit (setBit arr q) p := by
  rcases eq_or_ne (p / 8) (q / 8) with he | hne
  · unfold setBit
    rw [he]
    rcases Nat.lt_or_ge (q / 8) arr.length with hlt | hge
    · rw [getD_set_eq_of_lt _ hlt, getD_set_eq_of_lt _ hlt, List.set_set, List.set_set,
        Nat.lor_assoc, Nat.lor_assoc, Nat.lor_comm (1 <<< (p % 8))]
    · simp only [List.set_eq_of_length_le hge]
  · unfold setBit
    rw [getD_set_ne _ hne, getD_set_ne _ (Ne.symm hne), List.set_comm _ _ _ hne]

/-! ### Lemmas about the builder probe loop -/

theorem length_setLoop (bits delta j : Nat) :
    ∀ (h : Nat) (arr : List Nat), (setLoop bits delta h j arr).length = arr.length := by
  induction j with
  | zero => intro h arr; rfl
  | succ j ih => intro h arr; simp only [setLoop]; rw [ih, length_setBit]

theorem getBit_setLoop_of_getBit (bits delta j : Nat) :
    ∀ (h q : Nat) (arr : List Nat), getBit arr q = true →
      getBit (setLoop bits delta h j arr) q = true := by
  induction j with
  | zero => intro h q arr hq; exact hq
  | succ j ih =>
    intro h q arr hq
    simp only [setLoop]
    exact ih _ _ _ (getBit_setBit_of_getBit _ hq)

/-- One `w32` step of the evolving hash agrees with the closed form. -/
theorem w32_add_shift (h delta j : Nat) :
    w32 (w32 (h + delta) + j * delta) = w32 (h + (j + 1) * delta) := by
  unfold w32
  rw [Nat.mod_add_mod]
  congr 1
  ring

theorem getBit_setLoop_probe (bits delta : Nat) (k : Nat) :
    ∀ (h : Nat) (arr : List Nat), h < 2 ^ 32 → bits = arr.length * 8 → bits ≠ 0 →
      ∀ j, j < k → getBit (setLoop bits delta h k arr) (w32 (h + j * delta) % bits) = true := by
  induction k with
  | zero => intro h arr _ _ _ j hj; omega
  | succ k ih =>
    intro h arr hh hlen hne j hj
    have hposlt : h % bits < arr.length * 8 := hlen ▸ Nat.mod_lt _ (by omega)
    have hdivlt : h % bits / 8 < arr.length := (Nat.div_lt_iff_lt_mul (by omega)).2 hposlt
    simp only [setLoop]
    cases j with
    | zero =>
      have hpos : w32 (h + 0 * delta) % bits = h % bits := by
        simp only [Nat.zero_mul, Nat.add_zero]
        rw [w32, Nat.mod_eq_of_lt hh]
      rw [hpos]
      exact getBit_setLoop_of_getBit _ _ _ _ _ _
        (getBit_setBit_self hdivlt)
    | succ j =>
      have hlen2 : bits = (setBit arr (h % bits)).length * 8 := by
        rw [length_setBit]; exact hlen
      have := ih (w32 (h + delta)) (setBit arr (h % bits))
        (Nat.mod_lt _ (by positivity)) hlen2 hne j (by omega)
      rwa [w32_add_shift] at this

/-! ### Lemmas about adding keys and folding over the key list -/

theorem length_addKey (hash : HashFn) (bits k : Nat) (arr : List Nat) (key : List Nat) :
    (addKey hash bits k arr key).length = arr.length := length_setLoop ..

theorem getBit_addKey_of_getBit (hash : HashFn) (bits k : Nat) (arr : List Nat) (key : List Nat)
    {q : Nat} (h : getBit arr q = true) : getBit (addKey hash bits k arr key) q = true :=
  getBit_setLoop_of_getBit _ _ _ _ _ _ h

theorem bloomHash_lt (hash : HashFn) (key : List Nat) : bloomHash hash key < 2 ^ 32 :=
  Nat.mod_lt _ (by positivity)

theorem getBit_addKey_probe (hash : HashFn) (bits k : Nat) (arr : List Nat) (key : List Nat)
    (hlen : bits = arr.length * 8) (hne : bits ≠ 0) {j : Nat} (hj : j < k) :
    getBit (addKey hash bits k arr key) (probeSeq hash key bits j) = true :=
  getBit_setLoop_probe _ _ _ _ _ (bloomHash_lt hash key) hlen hne j hj

theorem length_foldl_addKey (hash : HashFn) (bits k : Nat) (keys : List (List Nat)) :
    ∀ arr : List Nat, (keys.foldl (addKey hash bits k) arr).length = arr.length := by
  induction keys with
  | nil => intro arr; rfl
  | cons x xs ih => intro arr; rw [List.foldl_cons, ih, length_addKey]

theorem getBit_foldl_of_getBit (hash : HashFn) (bits k : Nat) (keys : List (List Nat)) :
    ∀ (arr : List Nat) {q : Nat}, getBit arr q = true →
      getBit (keys.foldl (addKey hash bits k) arr) q = true := by
  induction keys with
  | nil => intro arr q h; exact h
  | cons x xs ih =>
    intro arr q h
    rw [List.foldl_cons]
    exact ih _ (getBit_addKey_of_getBit _ _ _ _ _ h)

theorem getBit_foldl_probe (hash : HashFn) (bits k : Nat) (keys : List (List Nat)) (key : List Nat) :
    ∀ (arr : List Nat), key ∈ keys → bits = arr.length * 8 → bits ≠ 0 →
      ∀ j, j < k → getBit (keys.foldl (addKey hash bits k) arr) (probeSeq hash key bits j) = true := by
  induction keys with
  | nil => intro arr hmem; cases hmem
  | cons x xs ih =>
    intro arr hmem hlen hne j hj
    rw [List.foldl_cons]
    rcases List.mem_cons.1 hmem with heq | hmem2
    · subst heq
      exact getBit_foldl_of_getBit _ _ _ _ _ (getBit_addKey_probe _ _ _ _ _ hlen hne hj)
    · exact ih _ hmem2 (by rw [length_addKey]; exact hlen) hne j hj

/-! ### Commutation lemmas (order independence of the builder) -/

theorem setLoop_setBit_comm (bits delta j : Nat) :
    ∀ (h p : Nat) (arr : List Nat),
      setLoop bits delta h j (setBit arr p) = setBit (setLoop bits delta h j arr) p := by
  induction j with
  | zero => intro h p arr; rfl
  | succ j ih =>
    intro h p arr
    simp only [setLoop]
    rw [setBit_comm, ih]

theorem setLoop_setLoop_comm (bits d1 d2 j1 : Nat) :
    ∀ (j2 h1 h2 : Nat) (arr : List Nat),
      setLoop bits d1 h1 j1 (setLoop bits d2 h2 j2 arr)
        = setLoop bits d2 h2 j2 (setLoop bits d1 h1 j1 arr) := by
  induction j1 with
  | zero => intro j2 h1 h2 arr; rfl
  | succ j1 ih =>
    intro j2 h1 h2 arr
    simp only [setLoop]
    rw [← setLoop_setBit_comm, ih]

theorem addKey_right_comm (hash : HashFn) (bits k : Nat) (arr : List Nat) (k1 k2 : List Nat) :
    addKey hash bits k (addKey hash bits k arr k1) k2
      = addKey hash bits k (addKey hash bits k arr k2) k1 := by
  unfold addKey
  rw [setLoop_setLoop_comm]

theorem foldl_perm_of_right_comm {α β : Type} (f : β → α → β)
    (hf : ∀ a x y, f (f a x) y = f (f a y) x) :
    ∀ {l1 l2 : List α}, l1.Perm l2 → ∀ a, l1.foldl f a = l2.foldl f a := by
  intro l1 l2 hp
  induction hp with
  | nil => intro a; rfl
  | cons x _ ih => intro a; rw [List.foldl_cons, List.foldl_cons]; exact ih _
  | swap x y l => intro a; simp only [List.foldl_cons]; rw [hf]
  | trans _ _ ih1 ih2 => intro a; rw [ih1, ih2]

/-! ### Lemmas about the query loop -/

theorem queryLoop_eq_true (arr : List Nat) (bits delta : Nat) (k : Nat) :
    ∀ h : Nat, h < 2 ^ 32 →
      (∀ j, j < k → getBit arr (w32 (h + j * delta) % bits) = true) →
      queryLoop arr bits delta h k = true := by
  induction k with
  | zero => intro h _ _; rfl
  | succ k ih =>
    intro h hh hall
    have h0 : getBit arr (h % bits) = true := by
      have := hall 0 (Nat.succ_pos k)
      rwa [Nat.zero_mul, Nat.add_zero, w32, Nat.mod_eq_of_lt hh] at this
    simp only [queryLoop, h0, if_true]
    refine ih (w32 (h + delta)) (Nat.mod_lt _ (by positivity)) ?_
    intro j hj
    rw [w32_add_shift]
    exact hall (j + 1) (by omega)

/-- A bit test against `arr ++ tail` lands in `arr` when the byte index is in
range of `arr`. -/
theorem getBit_append_left {arr tail : List Nat} {pos : Nat} (h : pos / 8 < arr.length) :
    getBit (arr ++ tail) pos = getBit arr pos := by
  unfold getBit
  rw [List.getD_append _ _ _ _ h]

/-! ### Arithmetic facts about the derived sizes -/

theorem clampK_mem (t : Nat) : 1 ≤ clampK t ∧ clampK t ≤ 30 := by
  unfold clampK
  split
  · omega
  · split <;> omega

theorem clampK_eq_min_max (t : Nat) : clampK t = min 30 (max 1 t) := by
  unfold clampK
  split
  · omega
  · split <;> omega

theorem kOf_le (b : Int) : kOf b ≤ 30 := (clampK_mem (rawK b)).2

theorem sizeTOfInt_eq {b : Int} (hb : 0 ≤ b) (hb2 : b < 2 ^ 64) :
    sizeTOfInt b = b.toNat := by
  unfold sizeTOfInt
  rw [Int.emod_eq_of_lt hb hb2]

theorem sizeTOfChar_eq_of_lt {b : Nat} (h : b < 128) : sizeTOfChar b = b := if_pos h

/-- Under the `int`-range side conditions of the C signatures, the byte count
is the ceiling formula of the specification. -/
theorem bytesOf_eq {b : Int} {n : Nat} (hb : 0 ≤ b) (hb2 : b < 2 ^ 31) (hn : n < 2 ^ 31) :
    bytesOf (mkPolicy b) n = (max (n * b.toNat) 64 + 7) / 8 := by
  have hbn : b.toNat < 2 ^ 31 := by omega
  have hprod : n * b.toNat < 2 ^ 62 := by
    calc n * b.toNat < 2 ^ 31 * 2 ^ 31 := mul_lt_mul'' hn hbn (Nat.zero_le _) (Nat.zero_le _)
    _ = 2 ^ 62 := by norm_num
  have hraw : rawBits (mkPolicy b) n = n * b.toNat := by
    unfold rawBits mkPolicy
    dsimp only
    rw [sizeTOfInt_eq hb (by omega)]
    exact Nat.mod_eq_of_lt (by omega)
  have hadj : adjBits (mkPolicy b) n = max (n * b.toNat) 64 := by
    unfold adjBits
    rw [hraw]
    split <;> omega
  unfold bytesOf
  rw [hadj]
  have : max (n * b.toNat) 64 + 7 < 2 ^ 64 := by omega
  rw [Nat.mod_eq_of_lt this]

theorem bytesOf_ge {b : Int} {n : Nat} (hb : 0 ≤ b) (hb2 : b < 2 ^ 31) (hn : n < 2 ^ 31) :
    8 ≤ bytesOf (mkPolicy b) n := by
  rw [bytesOf_eq hb hb2 hn]
  have : 64 ≤ max (n * b.toNat) 64 := le_max_right _ _
  omega

theorem finalBits_ne_zero {b : Int} {n : Nat} (hb : 0 ≤ b) (hb2 : b < 2 ^ 31) (hn : n < 2 ^ 31) :
    finalBits (mkPolicy b) n ≠ 0 := by
  unfold finalBits
  have := bytesOf_ge hb hb2 hn
  omega

theorem bytesOf_mul_lt {b : Int} {n : Nat} (hb : 0 ≤ b) (hb2 : b < 2 ^ 31) (hn : n < 2 ^ 31) :
    bytesOf (mkPolicy b) n * 8 < 2 ^ 64 := by
  rw [bytesOf_eq hb hb2 hn]
  have hbn : b.toNat < 2 ^ 31 := by omega
  have hprod : n * b.toNat < 2 ^ 62 := by
    calc n * b.toNat < 2 ^ 31 * 2 ^ 31 := mul_lt_mul'' hn hbn (Nat.zero_le _) (Nat.zero_le _)
    _ = 2 ^ 62 := by norm_num
  omega

/-! ### Structure of the built filter -/

theorem length_CreateFilter (hash : HashFn) (p : BloomFilterPolicy) (keys : List (List Nat)) :
    (CreateFilter hash p keys).length = bytesOf p keys.length + 1 := by
  unfold CreateFilter
  rw [List.length_append, length_foldl_addKey, List.length_replicate]
  rfl

theorem getD_CreateFilter_last (hash : HashFn) (p : BloomFilterPolicy) (keys : List (List Nat)) :
    (CreateFilter hash p keys).getD ((CreateFilter hash p keys).length - 1) 0 = p.k := by
  have harrlen : (keys.foldl (addKey hash (finalBits p keys.length) p.k)
      (List.replicate (bytesOf p keys.length) 0)).length = bytesOf p keys.length := by
    rw [length_foldl_addKey, List.length_replicate]
  rw [length_CreateFilter, Nat.add_sub_cancel]
  unfold CreateFilter
  rw [List.getD_append_right _ _ _ _ (le_of_eq harrlen), harrlen, Nat.sub_self]
  rfl

/-- Core of the no-false-negative property: querying any key that was fed to
the builder against the appended filter answers "possibly present", provided
the builder run was well defined (at least the minimum 8 bytes of bit array)
and the stored probe count fits in the trailing byte as a nonnegative char. -/
theorem KeyMayMatch_CreateFilter (hash : HashFn) (p : BloomFilterPolicy) (keys : List (List Nat))
    (key : List Nat) (hkey : key ∈ keys) (hbytes : 8 ≤ bytesOf p keys.length)
    (hwrap : bytesOf p keys.length * 8 < 2 ^ 64) (hk30 : p.k ≤ 30) :
    KeyMayMatch p hash key (CreateFilter hash p keys) = true := by
  have harrlen : (keys.foldl (addKey hash (finalBits p keys.length) p.k)
      (List.replicate (bytesOf p keys.length) 0)).length = bytesOf p keys.length := by
    rw [length_foldl_addKey, List.length_replicate]
  have hflen := length_CreateFilter hash p keys
  have hlast := getD_CreateFilter_last hash p keys
  unfold KeyMayMatch
  rw [if_neg (by omega)]
  show (if sizeTOfChar ((CreateFilter hash p keys).getD ((CreateFilter hash p keys).length - 1) 0)
        > 30 then true
      else queryLoop (CreateFilter hash p keys)
        (((CreateFilter hash p keys).length - 1) * 8 % 2 ^ 64)
        (deltaOf (bloomHash hash key)) (bloomHash hash key)
        (sizeTOfChar ((CreateFilter hash p keys).getD ((CreateFilter hash p keys).length - 1) 0)))
      = true
  rw [hlast, sizeTOfChar_eq_of_lt (by omega), if_neg (by omega)]
  have hbits : ((CreateFilter hash p keys).length - 1) * 8 % 2 ^ 64 = finalBits p keys.length := by
    rw [hflen, Nat.add_sub_cancel]
    exact Nat.mod_eq_of_lt hwrap
  rw [hbits]
  have hfb : finalBits p keys.length ≠ 0 := by unfold finalBits; omega
  refine queryLoop_eq_true _ _ _ _ _ (bloomHash_lt hash key) ?_
  intro j hj
  have hlt : w32 (bloomHash hash key + j * deltaOf (bloomHash hash key)) % finalBits p keys.length
      < finalBits p keys.length := Nat.mod_lt _ (Nat.pos_of_ne_zero hfb)
  have hdiv : w32 (bloomHash hash key + j * deltaOf (bloomHash hash key))
        % finalBits p keys.length / 8
      < (keys.foldl (addKey hash (finalBits p keys.length) p.k)
          (List.replicate (bytesOf p keys.length) 0)).length := by
    rw [harrlen]
    refine (Nat.div_lt_iff_lt_mul (by norm_num)).2 ?_
    calc w32 (bloomHash hash key + j * deltaOf (bloomHash hash key)) % finalBits p keys.length
        < finalBits p keys.length := hlt
    _ = bytesOf p keys.length * 8 := rfl
  show getBit ((keys.foldl (addKey hash (finalBits p keys.length) p.k)
      (List.replicate (bytesOf p keys.length) 0)) ++ [p.k])
      (w32 (bloomHash hash key + j * deltaOf (bloomHash hash key))
        % finalBits p keys.length) = true
  rw [getBit_append_left hdiv]
  exact getBit_foldl_probe hash _ _ keys key _ hkey (by rw [List.length_replicate]; rfl) hfb j hj

/-! ### Claim theorems -/

/-- Claim C1 (amended): no false negatives for every nonnegative
`bits_per_key` (with `bits_per_key` and the key count inside the `int` range
the C signatures impose).  For every key in the build list, `KeyMayMatch` on
the byte sequence `CreateFilter` appends returns `true`, under any hash
function.  (The original claim, over every `bits_per_key` including negative
ones, fails: see the counterexample, where the `size_t` computation makes the
appended filter a single byte.) -/
theorem C1_no_false_negatives (hash : HashFn) (b : Int) (keys : List (List Nat)) (key : List Nat)
    (hb : 0 ≤ b) (hb2 : b < 2 ^ 31) (hn : keys.length < 2 ^ 31) (hkey : key ∈ keys) :
    KeyMayMatch (mkPolicy b) hash key (CreateFilter hash (mkPolicy b) keys) = true :=
  KeyMayMatch_CreateFilter hash (mkPolicy b) keys key hkey
    (bytesOf_ge hb hb2 hn) (bytesOf_mul_lt hb hb2 hn) (kOf_le b)

theorem C1_witness :
    KeyMayMatch (mkPolicy 10) sampleHash [104, 105]
      (CreateFilter sampleHash (mkPolicy 10) [[104, 105]]) = true :=
  C1_no_false_negatives sampleHash 10 [[104, 105]] [104, 105]
    (by decide) (by decide) (by decide) (by decide)

/-- Claim C1 fails as stated for `bits_per_key = -1` with the one-key list
`[[0]]` (and the key `[0]` itself as the query): `bits_per_key_` wraps to
`2^64 - 1`, so `bits = 2^64 - 1`, the `size_t` computation `(bits + 7) / 8`
wraps to `bytes = 0`, the appended sequence is the single trailing byte, and
`KeyMayMatch` answers `false` for the inserted key — a false negative.  (In C
the build probe loop is moreover undefined behaviour there: `h % 0`.) -/
theorem C1_counterexample :
    KeyMayMatch (mkPolicy (-1)) sampleHash [0]
      (CreateFilter sampleHash (mkPolicy (-1)) [[0]]) = false := by decide

/-- Claim C2 (amended): for every nonnegative `bits_per_key` (within the
`int` range, as is every key count passed as `int n`), `CreateFilter` is
fully defined — its probe-loop modulus is nonzero and every byte write is
inside the appended bit array — and `KeyMayMatch` is fully defined on every
input whose encoded filter is at most `2^61` bytes, i.e. whose `size_t`
bit count `(len - 1) * 8` does not wrap.  (The original claim fails in both
directions: for negative `bits_per_key` in the builder, and for a filter
beyond `2^61` bytes in the matcher — see the counterexample, where each
modulus is zero.) -/
theorem C2_no_failure (hash : HashFn) (b : Int) (keys : List (List Nat))
    (hb : 0 ≤ b) (hb2 : b < 2 ^ 31) (hn : keys.length < 2 ^ 31) :
    CreateFilterSafe (mkPolicy b) keys.length ∧
    CreateFilterInBounds hash (mkPolicy b) keys ∧
    KeyMayMatchSafeBelowWrap hash := by
  have hfb := finalBits_ne_zero hb hb2 hn
  refine ⟨Or.inr hfb, ?_, ?_⟩
  · intro key _hkey j _hj
    have hlt : probeSeq hash key (finalBits (mkPolicy b) keys.length) j
        < finalBits (mkPolicy b) keys.length := Nat.mod_lt _ (Nat.pos_of_ne_zero hfb)
    refine (Nat.div_lt_iff_lt_mul (by norm_num)).2 ?_
    calc probeSeq hash key (finalBits (mkPolicy b) keys.length) j
        < finalBits (mkPolicy b) keys.length := hlt
    _ = bytesOf (mkPolicy b) keys.length * 8 := rfl
  · intro key f hlen h2 _hk1 _hk30
    have hm : (f.length - 1) * 8 % 2 ^ 64 = (f.length - 1) * 8 :=
      Nat.mod_eq_of_lt (by omega)
    rw [hm]
    have hne : (f.length - 1) * 8 ≠ 0 := by omega
    refine ⟨hne, ?_⟩
    intro j _hj
    have hlt : probeSeq hash key ((f.length - 1) * 8) j < (f.length - 1) * 8 :=
      Nat.mod_lt _ (Nat.pos_of_ne_zero hne)
    exact (Nat.div_lt_iff_lt_mul (by norm_num)).2 hlt

theorem C2_witness :
    CreateFilterSafe (mkPolicy 10) ([[104, 105]] : List (List Nat)).length ∧
    CreateFilterInBounds sampleHash (mkPolicy 10) [[104, 105]] ∧
    KeyMayMatchSafeBelowWrap sampleHash :=
  C2_no_failure sampleHash 10 [[104, 105]] (by decide) (by decide) (by decide)

/-- Claim C2 fails as stated, on both operations.  Builder: for
`bits_per_key = -1` and one key the final bit count is 0 (`bits_per_key_`
wraps to `2^64 - 1` and `(bits + 7) / 8` wraps to 0), so the probe loop
executes `h % 0`.  Matcher: for a filter of `2^61 + 1` bytes of value 1
(trailing probe count 1, so the loop runs), the `size_t` product
`(len - 1) * 8` wraps to 0 and the probe executes `h % 0`.  Both are
zero-divisor moduli (undefined behaviour in C), contradicting "every modulo
operation has a non-zero divisor". -/
theorem C2_counterexample :
    (finalBits (mkPolicy (-1)) 1 = 0 ∧ ¬ CreateFilterSafe (mkPolicy (-1)) 1) ∧
    ¬ KeyMayMatchSafe sampleHash [] (List.replicate (2 ^ 61 + 1) 1) := by
  refine ⟨⟨by decide, by unfold CreateFilterSafe; decide⟩, ?_⟩
  intro hsafe
  have hlen : (List.replicate (2 ^ 61 + 1) (1 : Nat)).length = 2 ^ 61 + 1 :=
    List.length_replicate _ _
  have hlast : (List.replicate (2 ^ 61 + 1) (1 : Nat)).getD
      ((List.replicate (2 ^ 61 + 1) (1 : Nat)).length - 1) 0 = 1 := by
    rw [hlen, List.getD_eq_getElem?_getD, List.getElem?_replicate, if_pos (by norm_num)]
    rfl
  obtain ⟨hne, -⟩ := hsafe (by rw [hlen]; decide) (by rw [hlast]; decide)
    (by rw [hlast]; decide)
  apply hne
  rw [hlen]
  decide

/-- Claim C3 (amended): the `k` computed at construction equals
`floor(bits_per_key * 0.69)` clamped to the inclusive range `[1, 30]`, for
every nonnegative `bits_per_key` (where the C cast is defined); `0.69` — the
code's stated two-decimal approximation of `ln 2` — is the exact rational the
source multiplies by, not `ln 2` itself (see the counterexample). -/
theorem C3_probe_count_formula (b : Int) (hb : 0 ≤ b) :
    (mkPolicy b).k = min 30 (max 1 (Int.toNat ⌊(b : ℚ) * (69 / 100)⌋)) := by
  have hfl : ⌊(b : ℚ) * (69 / 100)⌋ = 69 * b / 100 := by
    rw [show (b : ℚ) * (69 / 100) = ((69 * b : ℤ) : ℚ) / ((100 : ℕ) : ℚ) by push_cast; ring]
    exact Rat.floor_intCast_div_natCast (69 * b) 100
  rw [hfl]
  show clampK (rawK b) = _
  rw [clampK_eq_min_max]
  rfl

theorem C3_witness :
    (mkPolicy 13).k = min 30 (max 1 (Int.toNat ⌊(13 : ℚ) * (69 / 100)⌋)) :=
  C3_probe_count_formula 13 (by decide)

/-- Claim C3 fails as stated: the source multiplies by `0.69`, not by
`ln 2 = 0.693147...`.  At `bits_per_key = 13` the claimed value is
`clamp(floor(13 * ln 2)) = clamp(9) = 9`, but the constructor computes
`floor(13 * 0.69) = floor(8.97) = 8`. -/
theorem C3_counterexample :
    (mkPolicy 13).k ≠ clampK (Int.toNat ⌊(13 : ℝ) * Real.log 2⌋) := by
  have h1 := Real.log_two_gt_d9
  have h2 := Real.log_two_lt_d9
  have h9 : ⌊(13 : ℝ) * Real.log 2⌋ = 9 := by
    rw [Int.floor_eq_iff]
    constructor
    · push_cast
      nlinarith
    · push_cast
      nlinarith
  rw [h9]
  decide

/-- Claim C4: for every caller-supplied `bits_per_key` — including zero,
negative and very large values — the derived `k` stored in the policy
satisfies `1 ≤ k ≤ 30`; the second conjunct shows the clamp absorbs an
arbitrary result of the preceding cast (covering any resolution of the
undefined cast at negative arguments); in particular `bits_per_key = 0`
gives `k = 1` and `bits_per_key = 1000` gives `k = 30`. -/
theorem C4_probe_count_invariant :
    (∀ b : Int, 1 ≤ (mkPolicy b).k ∧ (mkPolicy b).k ≤ 30) ∧
    (∀ t : Nat, 1 ≤ clampK t ∧ clampK t ≤ 30) ∧
    (mkPolicy 0).k = 1 ∧ (mkPolicy 1000).k = 30 := by
  refine ⟨fun b => clampK_mem (rawK b), fun t => clampK_mem t, ?_, ?_⟩ <;> decide

/-- Claim C5 (amended): for every nonnegative `bits_per_key` (within the
`int` range, likewise the key count), `CreateFilter` appends exactly
`bytes + 1` bytes where `bytes = ceil(max(n * bits_per_key, 64) / 8)` (here
`(max(n * bits_per_key, 64) + 7) / 8` in natural division), the trailing byte
holds `k`, and in particular for `n = 1`, `bits_per_key = 1` the bit-array
portion is exactly 8 bytes.  (The original claim, over every `bits_per_key`,
fails at negative values: see the counterexample.) -/
theorem C5_output_layout (hash : HashFn) (b : Int) (keys : List (List Nat))
    (hb : 0 ≤ b) (hb2 : b < 2 ^ 31) (hn : keys.length < 2 ^ 31) :
    (CreateFilter hash (mkPolicy b) keys).length
        = (max (keys.length * b.toNat) 64 + 7) / 8 + 1 ∧
    (CreateFilter hash (mkPolicy b) keys).getD
        ((CreateFilter hash (mkPolicy b) keys).length - 1) 0 = (mkPolicy b).k ∧
    (CreateFilter hash (mkPolicy 1) [[0]]).length - 1 = 8 := by
  refine ⟨?_, getD_CreateFilter_last hash (mkPolicy b) keys, ?_⟩
  · rw [length_CreateFilter, bytesOf_eq hb hb2 hn]
  · rw [length_CreateFilter]
    decide

theorem C5_witness :
    (CreateFilter sampleHash (mkPolicy 2) [[5], [6]]).length
        = (max (([[5], [6]] : List (List Nat)).length * (2 : Int).toNat) 64 + 7) / 8 + 1 ∧
    (CreateFilter sampleHash (mkPolicy 2) [[5], [6]]).getD
        ((CreateFilter sampleHash (mkPolicy 2) [[5], [6]]).length - 1) 0 = (mkPolicy 2).k ∧
    (CreateFilter sampleHash (mkPolicy 1) [[0]]).length - 1 = 8 :=
  C5_output_layout sampleHash 2 [[5], [6]] (by decide) (by decide) (by decide)

/-- Claim C5 fails as stated for `bits_per_key = -1` and one key: the claimed
appended size is `ceil(max(1 * (-1), 64) / 8) + 1 = 64 / 8 rounded up plus
one = 9` bytes, but the code appends exactly 1 byte (`bits_per_key_` wraps
to `2^64 - 1` and `(bits + 7) / 8` wraps to `bytes = 0`). -/
theorem C5_counterexample :
    ((CreateFilter sampleHash (mkPolicy (-1)) [[0]]).length : Int)
      ≠ (max ((1 : Int) * (-1)) 64 + 7) / 8 + 1 := by decide

/-- Claim C6: a filter whose encoding is shorter than 2 bytes matches
nothing — `KeyMayMatch` returns `false` for every query key and every policy. -/
theorem C6_short_filter (p : BloomFilterPolicy) (hash : HashFn) (key : List Nat)
    (f : List Nat) (hf : f.length < 2) :
    KeyMayMatch p hash key f = false := by
  unfold KeyMayMatch
  rw [if_pos hf]

theorem C6_short_filter_witness :
    KeyMayMatch (mkPolicy 10) sampleHash [97] [255] = false :=
  C6_short_filter (mkPolicy 10) sampleHash [97] [255] (by decide)

/-- Claim C7: for every filter of length at least 2 whose trailing byte value
is 31 or higher, `KeyMayMatch` returns `true` for every query key without
probing any bit: byte values 31..127 read back as a probe count above 30
directly, and byte values 128..255 sign-extend through `char` to enormous
`size_t` values, also above 30. -/
theorem C7_reserved_encoding (p : BloomFilterPolicy) (hash : HashFn) (key : List Nat)
    (f : List Nat) (h2 : 2 ≤ f.length) (h31 : 31 ≤ f.getD (f.length - 1) 0)
    (h256 : f.getD (f.length - 1) 0 < 256) :
    KeyMayMatch p hash key f = true := by
  unfold KeyMayMatch
  rw [if_neg (by omega)]
  show (if sizeTOfChar (f.getD (f.length - 1) 0) > 30 then true
    else queryLoop f ((f.length - 1) * 8 % 2 ^ 64) (deltaOf (bloomHash hash key))
      (bloomHash hash key) (sizeTOfChar (f.getD (f.length - 1) 0))) = true
  have hk : sizeTOfChar (f.getD (f.length - 1) 0) > 30 := by
    unfold sizeTOfChar
    split <;> omega
  rw [if_pos hk]

theorem C7_witness :
    KeyMayMatch (mkPolicy 10) sampleHash [97] [0, 31] = true :=
  C7_reserved_encoding (mkPolicy 10) sampleHash [97] [0, 31]
    (by decide) (by decide) (by decide)

/-- Claim C8: `KeyMayMatch` is independent of the matcher's configuration:
for every query key and filter bytes, two policies built from any two
`bits_per_key` values answer identically — the method body reads none of the
receiver's members, taking the probe count from the filter's trailing byte.
The equality holds definitionally. -/
theorem C8_matcher_config_independent (hash : HashFn) (b1 b2 : Int) (key : List Nat)
    (f : List Nat) :
    KeyMayMatch (mkPolicy b1) hash key f = KeyMayMatch (mkPolicy b2) hash key f := rfl

/-- Claim C9: order independence — for every policy and any permutation of
the key list, `CreateFilter` appends the identical byte sequence (the filter
size depends only on the key count, and setting bits is commutative). -/
theorem C9_order_independent (hash : HashFn) (p : BloomFilterPolicy)
    (keys1 keys2 : List (List Nat)) (hperm : keys1.Perm keys2) :
    CreateFilter hash p keys1 = CreateFilter hash p keys2 := by
  unfold CreateFilter
  rw [hperm.length_eq]
  congr 1
  exact foldl_perm_of_right_comm _ (fun a x y => addKey_right_comm hash _ p.k a x y) hperm _

theorem C9_witness :
    CreateFilter sampleHash (mkPolicy 10) [[1], [2]]
      = CreateFilter sampleHash (mkPolicy 10) [[2], [1]] :=
  C9_order_independent sampleHash (mkPolicy 10) [[1], [2]] [[2], [1]]
    (List.Perm.swap [2] [1] [])

/-- Claim C10: a filter of length at least 2 whose trailing byte is 0 makes
the probe loop vacuous (`k = 0`), so `KeyMayMatch` returns `true` for every
query key — such a filter filters nothing. -/
theorem C10_zero_probe (p : BloomFilterPolicy) (hash : HashFn) (key : List Nat)
    (f : List Nat) (h2 : 2 ≤ f.length) (h0 : f.getD (f.length - 1) 0 = 0) :
    KeyMayMatch p hash key f = true := by
  unfold KeyMayMatch
  rw [if_neg (by omega)]
  show (if sizeTOfChar (f.getD (f.length - 1) 0) > 30 then true
    else queryLoop f ((f.length - 1) * 8 % 2 ^ 64) (deltaOf (bloomHash hash key))
      (bloomHash hash key) (sizeTOfChar (f.getD (f.length - 1) 0))) = true
  rw [h0]
  rfl

theorem C10_witness :
    KeyMayMatch (mkPolicy 10) sampleHash [97] [0, 0] = true :=
  C10_zero_probe (mkPolicy 10) sampleHash [97] [0, 0] (by decide) (by decide)

end LevelDBBloom
